import Mathlib

/- Shallow embedding of the uesmanncpp neural-network library.

   Covered source: ExampleSet storage and shuffling (data.hpp), the plain
   back-propagation network (bpnet.hpp), the UESMANN modulated network
   (uesnet.hpp), the output-blending network (obnet.hpp), the
   modulator-as-input network (hinet.hpp), the SGD driver's cross-validation
   best-model selection (net.hpp) and the binary serializer (netFactory).

   Machine doubles are modelled as rationals.  The logistic sigmoid is an
   abstract activation parameter `sg : ℚ → ℚ`; the claims under study only
   use `sg 0 = 1/2` (IEEE doubles give sigmoid(0) = 0.5 exactly), so all
   theorems are stated for an arbitrary activation, constrained where the
   claim needs it. -/

/-- C truncation toward zero of a rational, modelling the C++ cast `(int)d`
applied to a double `d`. -/
def cTrunc (q : ℚ) : ℤ := Int.tdiv q.num (q.den : ℤ)

/-- Model of `ExampleSet` (data.hpp): `dataBuf` is the flat `data` buffer of
doubles, `handles` is the `examples` array of per-example base offsets into
that buffer.  Each example stores `ninputs` inputs, then `noutputs` outputs,
then the modulator value `h`.  A number of the C++ fields (`ct`,
`outputOffset`, `hOffset`) are derived values here. -/
structure ExampleSet where
  dataBuf : ℕ → ℚ
  handles : List ℕ
  ninputs : ℕ
  noutputs : ℕ
  numHLevels : ℕ
  minH : ℚ
  maxH : ℚ

namespace ExampleSet

/-- `ct`: the number of examples (the length of the `examples` array). -/
def ct (es : ExampleSet) : ℕ := es.handles.length

/-- `outputOffset = ninputs` (set in the constructor). -/
def outputOffset (es : ExampleSet) : ℕ := es.ninputs

/-- `hOffset = ninputs + noutputs` (set in the constructor). -/
def hOffset (es : ExampleSet) : ℕ := es.ninputs + es.noutputs

/-- `getInputs(example)[k]`: inputs are first in each example's block. -/
def getInput (es : ExampleSet) (exIdx k : ℕ) : ℚ :=
  es.dataBuf (es.handles.getD exIdx 0 + k)

/-- `getOutputs(example)[j]`: outputs start at `outputOffset`. -/
def getOutput (es : ExampleSet) (exIdx j : ℕ) : ℚ :=
  es.dataBuf (es.handles.getD exIdx 0 + es.outputOffset + j)

/-- `getH(example)`: the modulator, stored at `hOffset`. -/
def getH (es : ExampleSet) (exIdx : ℕ) : ℚ :=
  es.dataBuf (es.handles.getD exIdx 0 + es.hOffset)

end ExampleSet

/- ------------------------------------------------------------------ -/
/- data.hpp : shuffling (ExampleSet::shuffle and alternate())         -/
/- ------------------------------------------------------------------ -/

/-- Exchange of the entries at positions `i` and `j` of a list (the
`memcpy`-based pointer swap in `ExampleSet::shuffle`, and the three-line
swap in `alternate`); `d` is a default for the (never exercised)
out-of-range reads. -/
def swapElems {α : Type} (d : α) (l : List α) (i j : ℕ) : List α :=
  (l.set i (l.getD j d)).set j (l.getD i d)

/-- Exchange of the two blocks of `b` consecutive entries starting at
positions `i` and `j`, element by element; `blockSwapAux d l i j t`
exchanges positions `i+s` and `j+s` for `s < t`. -/
def blockSwapAux {α : Type} (d : α) (l : List α) (i j : ℕ) : ℕ → List α
  | 0 => l
  | t + 1 => swapElems d (blockSwapAux d l i j t) (i + t) (j + t)

/-- The `memcpy` triple in `ExampleSet::shuffle`: exchange block `i` and
block `j`, each of `b` consecutive entries (the two ranges are disjoint
whenever `i ≠ j`, so the element-wise exchange is equivalent). -/
def blockSwap {α : Type} (d : α) (b : ℕ) (l : List α) (i j : ℕ) : List α :=
  blockSwapAux d l (i * b) (j * b) b

/-- The Fisher-Yates loop of `ExampleSet::shuffle` over blocks of size `b`:
for `i` from `ct/b - 1` down to `1`, draw `lr` from the PRNG, let
`j = lr % (i+1)`, and exchange blocks `i` and `j`.  `rand i` is the value
drawn by `lrand48_r` at loop index `i`. -/
def fyGo {α : Type} (d : α) (rand : ℕ → ℕ) (b : ℕ) : List α → ℕ → List α
  | l, 0 => l
  | l, i + 1 => fyGo d rand b (blockSwap d b l (i + 1) (rand (i + 1) % (i + 2))) i

/-- Linear scan used to model the inner `for(j=i;;j++)` search of
`alternate()`: the first index `k ≥ start` (in the suffix list `l`) whose
element satisfies `p`. -/
def findIdxFrom {α : Type} (p : α → Bool) : List α → ℕ → Option ℕ
  | [], _ => none
  | a :: as, start => if p a then some start else findIdxFrom p as (start + 1)

/-- The body of `alternate()` (data.hpp:26-46), position by position.  At
position `i`: if the resident element's `f` value modulo `cycle` (C `%` is
truncated, `Int.tmod`) differs from `i % cycle`, scan forward from `i` for
the first element matching `i % cycle`; if none remains, stop and return
the array as it stands; otherwise swap it into place.  `fuel` bounds the
scan (`fuel = nitems - i` at every call). -/
def altGo {α : Type} (d : α) (f : α → ℤ) (cycle : ℤ) : ℕ → List α → ℕ → List α
  | 0, l, _ => l
  | fuel + 1, l, i =>
    if i < l.length then
      if (f (l.getD i d)).tmod cycle = (i : ℤ).tmod cycle then
        altGo d f cycle fuel l (i + 1)
      else
        match findIdxFrom (fun a => (f a).tmod cycle == (i : ℤ).tmod cycle) (l.drop i) i with
        | none => l
        | some j => altGo d f cycle fuel (swapElems d l i j) (i + 1)
    else l

/-- `alternate(arr, nitems, cycle, f)`: run the rearranging pass from
position 0. -/
def alternateArr {α : Type} (d : α) (f : α → ℤ) (cycle : ℤ) (l : List α) : List α :=
  altGo d f cycle l.length l 0

/-- `ExampleSet::ShuffleMode`. -/
inductive ShuffleMode
  | STRIDE
  | ALTERNATE
  | NONE
deriving DecidableEq

namespace ExampleSet

/-- The bucket function passed to `alternate` by `ExampleSet::shuffle` for a
handle `e` (a pointer into the data buffer):
`(int)(((e[hOffset] - minH) / (maxH - minH)) * (numHLevels - 1))`. -/
def hBucket (es : ExampleSet) (e : ℕ) : ℤ :=
  cTrunc ((es.dataBuf (e + es.hOffset) - es.minH) / (es.maxH - es.minH) *
    ((es.numHLevels : ℚ) - 1))

/-- `ExampleSet::shuffle(rd, mode)` (data.hpp:254-281): Fisher-Yates over
blocks (`blockSize = numHLevels` for STRIDE, else 1) of the `examples`
handle array, followed for ALTERNATE by the `alternate()` rearranging pass
with the bucket function; the data buffer itself is never touched. -/
def shuffle (es : ExampleSet) (rand : ℕ → ℕ) (mode : ShuffleMode) : ExampleSet :=
  let blockSize := if mode = ShuffleMode.STRIDE then es.numHLevels else 1
  let l1 := fyGo 0 rand blockSize es.handles (es.ct / blockSize - 1)
  let l2 := if mode = ShuffleMode.ALTERNATE then
      alternateArr 0 es.hBucket (es.numHLevels : ℤ) l1
    else l1
  { es with handles := l2 }

end ExampleSet

/-- A concrete four-example set (no inputs or outputs, so each example is
just its modulator value) with `h` values 0,1,0,1 across two modulator
levels; used to exercise the ALTERNATE shuffle on explicit data. -/
def esAlt : ExampleSet where
  dataBuf := fun n => ((n % 2 : ℕ) : ℚ)
  handles := [0, 1, 2, 3]
  ninputs := 0
  noutputs := 0
  numHLevels := 2
  minH := 0
  maxH := 1

/- ------------------------------------------------------------------ -/
/- hinet.hpp : the modulator-as-input network (HInputNet)             -/
/- ------------------------------------------------------------------ -/

/-- The layer-size array built by the `HInputNet` constructor: it copies the
caller's `layerCounts` and then performs `ll[0]++`, adding the synthetic
modulator input to layer 0 before calling `init`. -/
def hinetLayerSizes (layerCounts : List ℕ) : List ℕ :=
  match layerCounts with
  | [] => []
  | n0 :: rest => (n0 + 1) :: rest

/-- `BPNet::getLayerSize(n)`: simply `layerSizes[n]` (bpnet.hpp:124-126).
This is how the wrapped plain network reports its layer sizes. -/
def bpGetLayerSize (layerSizes : List ℕ) (n : ℕ) : ℕ :=
  layerSizes.getD n 0

/-- `HInputNet::getLayerSize(n)` (hinet.hpp:52-57): the C++ reads
`int ct = layerSizes[0]` and returns `(n==0) ? ct-1 : ct`. -/
def hinetGetLayerSize (layerSizes : List ℕ) (n : ℕ) : ℕ :=
  let c := layerSizes.getD 0 0
  if n = 0 then c - 1 else c

/- ------------------------------------------------------------------ -/
/- netFactory : NetFactory::saveNet / NetFactory::loadNet             -/
/- ------------------------------------------------------------------ -/

/-- The sequence of 32-bit words written by `NetFactory::saveNet` before the
parameter block: the magic variant tag, the layer count, and then one word
per layer.  In the per-layer loop the C++ computes
`uint32_t layersize = n->getLayerSize(i)` but then executes
`fwrite(&layercount, sizeof(uint32_t), 1, a)`, so the word written for every
layer is the layer count (the computed `layersize` is unused). -/
def saveNetHeader (typeTag : ℕ) (layerSizes : List ℕ) : List ℕ :=
  typeTag :: layerSizes.length :: layerSizes.map (fun _ => layerSizes.length)

/-- The header parse performed by `NetFactory::loadNet`: read the magic tag,
read the layer count, then read exactly that many words as the layer sizes
(failing on a short read). -/
def loadNetHeader (ws : List ℕ) : Option (ℕ × List ℕ) :=
  match ws with
  | t :: c :: rest => if c ≤ rest.length then some (t, rest.take c) else none
  | _ => none

/- ------------------------------------------------------------------ -/
/- bpnet.hpp / uesnet.hpp : the plain and UESMANN networks            -/
/- ------------------------------------------------------------------ -/

/-- Model of `BPNet` (bpnet.hpp): the layer-size array and the parameter
buffers, accessed as the C++ does through `getw(tolayer, toneuron,
fromneuron)` and `getb(layer, neuron)` (the dense square weight matrix of
stride `largestLayerSize` is abstracted to the indexing function those
accessors implement; cells outside the real shape are still present and are
never written by training).  `UESNet` shares this layout exactly. -/
structure BPNet where
  layerSizes : List ℕ
  weights : ℕ → ℕ → ℕ → ℚ
  biases : ℕ → ℕ → ℚ

namespace BPNet

/-- `numLayers`. -/
def numLayers (net : BPNet) : ℕ := net.layerSizes.length

/-- `layerSizes[l]`. -/
def sizeAt (net : BPNet) (l : ℕ) : ℕ := net.layerSizes.getD l 0

/-- The forward pass `BPNet::update` (bpnet.hpp:321-331), expressed as the
output of node `j` of layer `l` for input-layer contents `ins`: for each
non-input layer, `v = bias + sum(weight * previous output)` and the output
is the activation of `v`. -/
def layerOut (sg : ℚ → ℚ) (net : BPNet) (ins : ℕ → ℚ) : ℕ → ℕ → ℚ
  | 0, k => ins k
  | l + 1, j =>
    sg (net.biases (l + 1) j +
      ∑ k ∈ Finset.range (net.sizeAt l),
        net.weights (l + 1) j k * layerOut sg net ins l k)

/-- Output `j` of a full forward pass (`getOutputs` after `update`): the
output layer is layer `numLayers - 1`. -/
def netOut (sg : ℚ → ℚ) (net : BPNet) (ins : ℕ → ℚ) (j : ℕ) : ℚ :=
  layerOut sg net ins (net.numLayers - 1) j

/-- `Net::test(examples, start, num)` (net.hpp:142-164): run each example
(for a plain network `setH` is a no-op), accumulate the squared error over
the example set's output count, and divide by `num * outputCount`. -/
def netTest (sg : ℚ → ℚ) (net : BPNet) (ex : ExampleSet) (start num : ℕ) : ℚ :=
  (∑ i ∈ Finset.range num, ∑ j ∈ Finset.range ex.noutputs,
      (netOut sg net (fun k => ex.getInput (start + i) k) j
        - ex.getOutput (start + i) j) ^ 2)
    / ((num : ℚ) * (ex.noutputs : ℚ))

/-- The error terms of `BPNet::calcError` (bpnet.hpp:294-319), indexed by
distance `dd` from the output layer: at the output layer
`o * (1 - o) * (o - target)`; at a hidden layer `l` the weighted sum of the
next layer's errors times `out * (1 - out)`. -/
def errFromTop (sg : ℚ → ℚ) (net : BPNet) (ins tgt : ℕ → ℚ) : ℕ → ℕ → ℚ
  | 0, i =>
    let o := layerOut sg net ins (net.numLayers - 1) i
    o * (1 - o) * (o - tgt i)
  | dd + 1, j =>
    let l := net.numLayers - 1 - (dd + 1)
    (∑ i ∈ Finset.range (net.sizeAt (l + 1)),
        errFromTop sg net ins tgt dd i * net.weights (l + 1) i j)
      * layerOut sg net ins l j * (1 - layerOut sg net ins l j)

/-- `errors[l][i]` after `calcError`. -/
def errAt (sg : ℚ → ℚ) (net : BPNet) (ins tgt : ℕ → ℚ) (l i : ℕ) : ℚ :=
  errFromTop sg net ins tgt (net.numLayers - 1 - l) i

/-- `BPNet::trainBatch(ex, start, num, eta)` (bpnet.hpp:333-387): zero the
gradient accumulators; for each of the `num` examples run `calcError`
(weights are only modified after the loop, so every example is evaluated on
the incoming parameters) and accumulate the per-weight and per-bias error
products and the squared output error; then apply
`weight -= eta * accumulatedGradient * (1/num)` (same for biases) at every
in-range index, and return `totalError * (1/num)`.  (`setH` is called per
example but is a no-op on a plain network.)  Returns the updated network
and the returned error value. -/
def trainBatch (sg : ℚ → ℚ) (net : BPNet) (ex : ExampleSet) (start num : ℕ)
    (eta : ℚ) : BPNet × ℚ :=
  let insOf := fun (nn k : ℕ) => ex.getInput (start + nn) k
  let tgtOf := fun (nn j : ℕ) => ex.getOutput (start + nn) j
  let outOf := fun (nn l k : ℕ) => layerOut sg net (insOf nn) l k
  let errOf := fun (nn l i : ℕ) => errAt sg net (insOf nn) (tgtOf nn) l i
  let L := net.numLayers
  let gradW := fun (l i j : ℕ) => ∑ nn ∈ Finset.range num, errOf nn l i * outOf nn (l - 1) j
  let gradB := fun (l i : ℕ) => ∑ nn ∈ Finset.range num, errOf nn l i
  let totalError := ∑ nn ∈ Finset.range num, ∑ i ∈ Finset.range (net.sizeAt (L - 1)),
      (outOf nn (L - 1) i - tgtOf nn i) ^ 2
  let factor : ℚ := 1 / (num : ℚ)
  ({ net with
      weights := fun l i j =>
        if 1 ≤ l ∧ l < L ∧ i < net.sizeAt l ∧ j < net.sizeAt (l - 1) then
          net.weights l i j - eta * gradW l i j * factor
        else net.weights l i j
      biases := fun l i =>
        if 1 ≤ l ∧ l < L ∧ i < net.sizeAt l then
          net.biases l i - eta * gradB l i * factor
        else net.biases l i },
    totalError * factor)

end BPNet

/-- The claim's phrase "the sum of squared output errors over all outputs
and all examples of the batch", written on its own so the returned error of
`trainBatch` can be compared against it. -/
def batchSSE (sg : ℚ → ℚ) (net : BPNet) (ex : ExampleSet) (start num : ℕ) : ℚ :=
  ∑ nn ∈ Finset.range num, ∑ i ∈ Finset.range (net.sizeAt (net.numLayers - 1)),
    (BPNet.layerOut sg net (fun k => ex.getInput (start + nn) k) (net.numLayers - 1) i
      - ex.getOutput (start + nn) i) ^ 2

/-- The forward pass `UESNet::update` (uesnet.hpp:76-88): the modulated
network shares the plain network's layout; each non-input node computes
`v = sum(weight * previous output)` and activates `v * (h+1) + bias` — the
`(h+1)` factor scales the weighted contribution, never the bias. -/
def uesLayerOut (sg : ℚ → ℚ) (net : BPNet) (modulator : ℚ) (ins : ℕ → ℚ) :
    ℕ → ℕ → ℚ
  | 0, k => ins k
  | l + 1, j =>
    sg ((∑ k ∈ Finset.range (net.sizeAt l),
          net.weights (l + 1) j k * uesLayerOut sg net modulator ins l k)
        * (modulator + 1) + net.biases (l + 1) j)

/-- Output `j` of a full UESMANN forward pass. -/
def uesNetOut (sg : ℚ → ℚ) (net : BPNet) (modulator : ℚ) (ins : ℕ → ℚ) (j : ℕ) : ℚ :=
  uesLayerOut sg net modulator ins (net.numLayers - 1) j

/- ------------------------------------------------------------------ -/
/- obnet.hpp : the output-blending network                            -/
/- ------------------------------------------------------------------ -/

/-- Model of `OutputBlendingNet`: two independent plain networks, the
blending modulator, and the `lastError` running state (initialised to -1
in the C++ class body). -/
structure OutputBlendingNet where
  net0 : BPNet
  net1 : BPNet
  modulator : ℚ
  lastError : ℚ

/-- `OutputBlendingNet::trainBatch(ex, start, num, eta)` (obnet.hpp:119-147).
The `num != 1` guard constructs `std::runtime_error("num!=1 (i.e. batch
training) not implemented")` but never throws it (there is no `throw`), so
execution continues identically for every `num`: the example's modulator
selects `net0` (h < 0.5) or `net1`, that sub-network is trained on exactly
the one example at `start`, and the returned value is the two-presentation
running mean maintained through `lastError`. -/
def obTrainBatch (sg : ℚ → ℚ) (ob : OutputBlendingNet) (ex : ExampleSet)
    (start num : ℕ) (eta : ℚ) : OutputBlendingNet × ℚ :=
  let hzero : Bool := decide (ex.getH start < 1/2)
  let r := if hzero then BPNet.trainBatch sg ob.net0 ex start 1 eta
           else BPNet.trainBatch sg ob.net1 ex start 1 eta
  let e := r.2
  let ob2 := if hzero then { ob with net0 := r.1 } else { ob with net1 := r.1 }
  if ob.lastError < 0 then ({ ob2 with lastError := e }, e)
  else if hzero then (ob2, ob.lastError)
  else
    let m := (e + ob.lastError) * (1 / 2)
    ({ ob2 with lastError := m }, m)

/- ------------------------------------------------------------------ -/
/- Concrete instances used by witnesses and counterexamples           -/
/- ------------------------------------------------------------------ -/

/-- The all-halves activation: any function with `sg 0 = 1/2` works for the
zero-parameter evaluations, and this one is exactly computable. -/
def sgHalf : ℚ → ℚ := fun _ => 1 / 2

/-- A 5-3-2 plain network with every weight and bias zero. -/
def zeroNet532 : BPNet where
  layerSizes := [5, 3, 2]
  weights := fun _ _ _ => 0
  biases := fun _ _ => 0

/-- The example set of the spec's concrete `test` case: 10 examples, 5
inputs, 2 outputs, output `j` of example `i` equal to `i*20 + j` (each
example block is 5 inputs, 2 outputs, 1 modulator = 8 doubles; inputs and
modulators are zero and are irrelevant to a zero network). -/
def exC9 : ExampleSet where
  dataBuf := fun n =>
    if n % 8 = 5 then ((20 * (n / 8) : ℕ) : ℚ)
    else if n % 8 = 6 then ((20 * (n / 8) + 1 : ℕ) : ℚ)
    else 0
  handles := [0, 8, 16, 24, 32, 40, 48, 56, 64, 72]
  ninputs := 5
  noutputs := 2
  numHLevels := 1
  minH := 0
  maxH := 1

/-- A 1-2 plain network with zero parameters, for exercising `trainBatch`'s
returned error with two outputs. -/
def netC5 : BPNet where
  layerSizes := [1, 2]
  weights := fun _ _ _ => 0
  biases := fun _ _ => 0

/-- One example with 1 input, 2 outputs, all stored values zero. -/
def exC5 : ExampleSet where
  dataBuf := fun _ => 0
  handles := [0]
  ninputs := 1
  noutputs := 2
  numHLevels := 1
  minH := 0
  maxH := 1

/-- A 1-1 plain network with zero parameters. -/
def netZ11 : BPNet where
  layerSizes := [1, 1]
  weights := fun _ _ _ => 0
  biases := fun _ _ => 0

/-- A one-example cross-validation slice whose single target is 3/2, so a
zero network scores squared error 1 on it. -/
def exCV : ExampleSet where
  dataBuf := fun n => if n = 1 then 3 / 2 else 0
  handles := [0]
  ninputs := 1
  noutputs := 1
  numHLevels := 1
  minH := 0
  maxH := 1

/- ------------------------------------------------------------------ -/
/- net.hpp : trainSGD cross-validation best-model selection           -/
/- ------------------------------------------------------------------ -/

/-- The running best-model state of `trainSGD`: `minError` (initialised to
the rogue value -1) and the optional best-parameter snapshot
`bestNetBuffer`. -/
structure BestSel (P : Type) where
  minError : ℚ
  bestNetBuffer : Option P

/-- The best-model update performed inside a cross-validation event when
`selectBestWithCV` is true (net.hpp:512-521).  `trainingError` is the value
returned by `trainBatch` at line 484 for the iteration's single example;
`cvError` is the error of the evaluated CV slice computed by `test` at line
507.  The C++ condition is `minError < 0 || trainingError < minError` and on
improvement it snapshots the current parameters (when `storeBestNet`) and
sets `minError = trainingError`; the slice error `cvError` is only written
to the log file and is not consulted. -/
def cvSelectStep {P : Type} (storeBestNet : Bool) (currentParams : P)
    (trainingError cvError : ℚ) (st : BestSel P) : BestSel P :=
  if st.minError < 0 ∨ trainingError < st.minError then
    { minError := trainingError
      bestNetBuffer := if storeBestNet then some currentParams else st.bestNetBuffer }
  else st

/-- One cross-validation event of `trainSGD` for a plain network in the
`selectBestWithCV` configuration (net.hpp:502-524, the slice-advance and
optional CV reshuffle at lines 524-527 aside): compute the evaluated
slice's error with `test(cvExamples, cvSlice*nPerSlice, nPerSlice)` (line
507), then perform the best-model update of lines 512-521.  Returns the
updated selection state and the slice error that was computed (and, in the
C++, only logged). -/
def cvEvent (sg : ℚ → ℚ) (net : BPNet) (cvExamples : ExampleSet)
    (nPerSlice cvSlice : ℕ) (storeBestNet : Bool) (trainingError : ℚ)
    (st : BestSel BPNet) : BestSel BPNet × ℚ :=
  let error := BPNet.netTest sg net cvExamples (cvSlice * nPerSlice) nPerSlice
  (cvSelectStep storeBestNet net trainingError error st, error)

/- ------------------------------------------------------------------ -/
/- data.hpp : the guarded per-example accessors (signed index)        -/
/- ------------------------------------------------------------------ -/

/-- The guard of the per-example accessors of `ExampleSet`
(data.hpp:326-369): each of `getInputs`, `getOutputs`, `getH` and `setH`
takes a signed `int example` and checks only `assert(example < ct)`. -/
def assertIndex (exIdx ct : ℤ) : Bool := decide (exIdx < ct)

namespace ExampleSet

/-- `getInputs` with its assertion made explicit: `none` models the failed
assertion aborting the call; when the guard passes the read proceeds (for a
negative index the C++ reads out of bounds; the model's value there is
immaterial, only the fact that the call proceeds is). -/
def getInputsChecked (es : ExampleSet) (exIdx : ℤ) : Option (ℕ → ℚ) :=
  if assertIndex exIdx (es.ct : ℤ) then
    some (fun k => es.dataBuf (es.handles.getD exIdx.toNat 0 + k))
  else none

/-- `getOutputs` with its assertion made explicit. -/
def getOutputsChecked (es : ExampleSet) (exIdx : ℤ) : Option (ℕ → ℚ) :=
  if assertIndex exIdx (es.ct : ℤ) then
    some (fun j => es.dataBuf (es.handles.getD exIdx.toNat 0 + es.outputOffset + j))
  else none

/-- `getH` with its assertion made explicit. -/
def getHChecked (es : ExampleSet) (exIdx : ℤ) : Option ℚ :=
  if assertIndex exIdx (es.ct : ℤ) then
    some (es.dataBuf (es.handles.getD exIdx.toNat 0 + es.hOffset))
  else none

/-- `setH` with its assertion made explicit: on success the stored modulator
cell of the example is overwritten. -/
def setHChecked (es : ExampleSet) (exIdx : ℤ) (h : ℚ) : Option ExampleSet :=
  if assertIndex exIdx (es.ct : ℤ) then
    some { es with dataBuf := fun n =>
      if n = es.handles.getD exIdx.toNat 0 + es.hOffset then h else es.dataBuf n }
  else none

end ExampleSet

/- ------------------------------------------------------------------ -/
/- Theorems                                                           -/
/- ------------------------------------------------------------------ -/

/-- C8: for a modulator-as-input network built over layer sizes (2,3,1), the
public `getLayerSize(0)` hides the synthetic channel and reports 2 as the
claim states, but `getLayerSize(2)` returns 3 (the wrapped network's true
input-layer size, read from `layerSizes[0]`) while the wrapped plain network
reports layer 2 as having size 1: the claim's delegation property fails for
every layer index at or above 1 whose size differs from the true input
size. -/
theorem hinet_getLayerSize_bug :
    hinetGetLayerSize (hinetLayerSizes [2, 3, 1]) 0 = 2 ∧
    hinetGetLayerSize (hinetLayerSizes [2, 3, 1]) 2 = 3 ∧
    bpGetLayerSize (hinetLayerSizes [2, 3, 1]) 2 = 1 ∧
    hinetGetLayerSize (hinetLayerSizes [2, 3, 1]) 2 ≠
      bpGetLayerSize (hinetLayerSizes [2, 3, 1]) 2 := by
  decide

/-- C4: the record written by `saveNet` for a network with layer sizes
(2,3,1) carries (3,3,3) in its per-layer size words, because the loop writes
the layer count in place of each computed layer size; `loadNet` therefore
reconstructs topology (3,3,3), which differs from the saved network's
(2,3,1), so saving and reloading does not reproduce the layer sizes. -/
theorem saveNet_layer_words_bug :
    loadNetHeader (saveNetHeader 0 [2, 3, 1]) = some (0, [3, 3, 3]) ∧
    ([3, 3, 3] : List ℕ) ≠ [2, 3, 1] := by
  decide

/-- Unfolding equation for one step of the `alternate()` pass. -/
theorem altGo_succ {α : Type} (d : α) (f : α → ℤ) (cycle : ℤ) (fuel : ℕ)
    (l : List α) (i : ℕ) :
    altGo d f cycle (fuel + 1) l i =
      if i < l.length then
        if (f (l.getD i d)).tmod cycle = (i : ℤ).tmod cycle then
          altGo d f cycle fuel l (i + 1)
        else
          match findIdxFrom (fun a => (f a).tmod cycle == (i : ℤ).tmod cycle) (l.drop i) i with
          | none => l
          | some j => altGo d f cycle fuel (swapElems d l i j) (i + 1)
      else l := rfl

/-- Helper: replacing position `j` of `t` by `a` while moving the old entry
`t[j]` to the front is a permutation of pushing `a` on the front. -/
theorem perm_getD_cons_set {α : Type} (d a : α) :
    ∀ (t : List α) (j : ℕ), j < t.length →
      List.Perm (t.getD j d :: t.set j a) (a :: t) := by
  intro t
  induction t with
  | nil => intro j hj; simp at hj
  | cons b s ih =>
    intro j hj
    cases j with
    | zero =>
      simp only [List.getD_cons_zero, List.set_cons_zero]
      exact List.Perm.swap a b s
    | succ j' =>
      simp only [List.getD_cons_succ, List.set_cons_succ]
      have h' : j' < s.length := by simpa using hj
      exact ((List.Perm.swap b (s.getD j' d) (s.set j' a)).trans
        (List.Perm.cons b (ih j' h'))).trans (List.Perm.swap a b s)

/-- A swap of two in-range positions permutes the list. -/
theorem swapElems_perm {α : Type} (d : α) :
    ∀ (l : List α) (i j : ℕ), i < l.length → j < l.length →
      List.Perm (swapElems d l i j) l := by
  intro l
  induction l with
  | nil => intro i j hi _; simp at hi
  | cons a t ih =>
    intro i j hi hj
    cases i with
    | zero =>
      cases j with
      | zero => simp [swapElems]
      | succ j' =>
        have h' : j' < t.length := by simpa using hj
        simp only [swapElems, List.getD_cons_zero, List.getD_cons_succ,
          List.set_cons_zero, List.set_cons_succ]
        exact perm_getD_cons_set d a t j' h'
    | succ i' =>
      cases j with
      | zero =>
        have h' : i' < t.length := by simpa using hi
        simp only [swapElems, List.getD_cons_zero, List.getD_cons_succ,
          List.set_cons_zero, List.set_cons_succ]
        exact perm_getD_cons_set d a t i' h'
      | succ j' =>
        have hi' : i' < t.length := by simpa using hi
        have hj' : j' < t.length := by simpa using hj
        simp only [swapElems, List.getD_cons_succ, List.set_cons_succ]
        exact List.Perm.cons a (ih i' j' hi' hj')

/-- Swapping never changes the length, in or out of range. -/
theorem swapElems_length {α : Type} (d : α) (l : List α) (i j : ℕ) :
    (swapElems d l i j).length = l.length := by
  simp [swapElems]

/-- An iterated element-wise block exchange with both blocks in range
permutes the list. -/
theorem blockSwapAux_perm {α : Type} (d : α) (l : List α) (i j : ℕ) :
    ∀ t, i + t ≤ l.length → j + t ≤ l.length →
      List.Perm (blockSwapAux d l i j t) l := by
  intro t
  induction t with
  | zero => intro _ _; exact List.Perm.refl l
  | succ t ih =>
    intro hi hj
    have hpl : List.Perm (blockSwapAux d l i j t) l :=
      ih (by omega) (by omega)
    have hlen : (blockSwapAux d l i j t).length = l.length := hpl.length_eq
    have h1 : i + t < (blockSwapAux d l i j t).length := by omega
    have h2 : j + t < (blockSwapAux d l i j t).length := by omega
    exact List.Perm.trans (swapElems_perm d _ (i + t) (j + t) h1 h2) hpl

theorem blockSwapAux_length {α : Type} (d : α) (l : List α) (i j : ℕ) :
    ∀ t, (blockSwapAux d l i j t).length = l.length := by
  intro t
  induction t with
  | zero => rfl
  | succ t ih => simp [blockSwapAux, swapElems_length, ih]

/-- A block swap of two in-range blocks permutes the list. -/
theorem blockSwap_perm {α : Type} (d : α) (b : ℕ) (l : List α) (i j : ℕ)
    (hi : (i + 1) * b ≤ l.length) (hj : (j + 1) * b ≤ l.length) :
    List.Perm (blockSwap d b l i j) l := by
  have h1 : i * b + b ≤ l.length := by nlinarith
  have h2 : j * b + b ≤ l.length := by nlinarith
  exact blockSwapAux_perm d l (i * b) (j * b) b h1 h2

theorem blockSwap_length {α : Type} (d : α) (b : ℕ) (l : List α) (i j : ℕ) :
    (blockSwap d b l i j).length = l.length :=
  blockSwapAux_length d l (i * b) (j * b) b

/-- The Fisher-Yates pass permutes the list whenever the blocks it touches
are in range. -/
theorem fyGo_perm {α : Type} (d : α) (rand : ℕ → ℕ) (b : ℕ) :
    ∀ (i : ℕ) (l : List α), (i + 1) * b ≤ l.length →
      List.Perm (fyGo d rand b l i) l := by
  intro i
  induction i with
  | zero => intro l _; exact List.Perm.refl l
  | succ i ih =>
    intro l hle
    set j := rand (i + 1) % (i + 2) with hjdef
    have hjle : j + 1 ≤ i + 2 := Nat.mod_lt _ (by omega)
    have hjb : (j + 1) * b ≤ l.length :=
      le_trans (Nat.mul_le_mul_right b hjle) hle
    have hperm : List.Perm (blockSwap d b l (i + 1) j) l :=
      blockSwap_perm d b l (i + 1) j hle hjb
    have hrec : (i + 1) * b ≤ (blockSwap d b l (i + 1) j).length := by
      rw [blockSwap_length]
      exact le_trans (Nat.mul_le_mul_right b (by omega)) hle
    exact List.Perm.trans (ih _ hrec) hperm

/-- `findIdxFrom` only reports positions at or after the start of the
scanned suffix, inside it, and the element found satisfies the
predicate. -/
theorem findIdxFrom_spec {α : Type} (d : α) (p : α → Bool) :
    ∀ (m : List α) (start k : ℕ), findIdxFrom p m start = some k →
      start ≤ k ∧ k - start < m.length ∧ p (m.getD (k - start) d) = true := by
  intro m
  induction m with
  | nil => intro start k h; simp [findIdxFrom] at h
  | cons a as ih =>
    intro start k h
    by_cases hp : p a
    · simp [findIdxFrom, hp] at h
      subst h
      simpa using hp
    · simp only [findIdxFrom, hp, if_false] at h
      obtain ⟨h1, h2, h3⟩ := ih (start + 1) k h
      refine ⟨by omega, by simp only [List.length_cons]; omega, ?_⟩
      have hk : k - start = (k - (start + 1)) + 1 := by omega
      rw [hk]
      simpa using h3

/-- If some element of the scanned suffix satisfies the predicate, the scan
succeeds. -/
theorem findIdxFrom_isSome {α : Type} (p : α → Bool) :
    ∀ (m : List α) (start : ℕ), (∃ a ∈ m, p a) →
      (findIdxFrom p m start).isSome := by
  intro m
  induction m with
  | nil => intro start h; simp at h
  | cons a as ih =>
    intro start h
    by_cases hp : p a
    · simp [findIdxFrom, hp]
    · simp only [findIdxFrom, hp, if_false]
      apply ih
      rcases h with ⟨x, hx, hpx⟩
      rcases List.mem_cons.mp hx with rfl | hx'
      · exact absurd hpx (by simp [hp])
      · exact ⟨x, hx', hpx⟩

/-- The `alternate()` pass permutes the list. -/
theorem altGo_perm {α : Type} (d : α) (f : α → ℤ) (cycle : ℤ) :
    ∀ (fuel : ℕ) (l : List α) (i : ℕ),
      List.Perm (altGo d f cycle fuel l i) l := by
  intro fuel
  induction fuel with
  | zero => intro l i; exact List.Perm.refl l
  | succ fuel ih =>
    intro l i
    rw [altGo_succ]
    by_cases hi : i < l.length
    · rw [if_pos hi]
      by_cases hmatch : (f (l.getD i d)).tmod cycle = (i : ℤ).tmod cycle
      · rw [if_pos hmatch]
        exact ih l (i + 1)
      · rw [if_neg hmatch]
        rcases hfind : findIdxFrom
            (fun a => (f a).tmod cycle == (i : ℤ).tmod cycle) (l.drop i) i with _ | j
        · exact List.Perm.refl l
        · obtain ⟨hij, hlt, _⟩ := findIdxFrom_spec d _ _ _ _ hfind
          have hjlen : j < l.length := by
            have := List.length_drop i l
            omega
          exact List.Perm.trans (ih _ (i + 1)) (swapElems_perm d l i j hi hjlen)
    · rw [if_neg hi]

/-- C6: for every ExampleSet, PRNG stream and shuffle mode (NONE, STRIDE or
ALTERNATE), `shuffle` permutes the logical example positions: the handle
array after the call is a permutation of the handle array before it (so
every example handle present before appears exactly once after), and the
underlying data buffer is unchanged. -/
theorem shuffle_perm_data_unchanged (es : ExampleSet) (rand : ℕ → ℕ)
    (mode : ShuffleMode) :
    List.Perm (es.shuffle rand mode).handles es.handles ∧
    (es.shuffle rand mode).dataBuf = es.dataBuf := by
  constructor
  · show List.Perm _ _
    simp only [ExampleSet.shuffle]
    set b := if mode = ShuffleMode.STRIDE then es.numHLevels else 1 with hb
    have hfy : List.Perm (fyGo 0 rand b es.handles (es.ct / b - 1)) es.handles := by
      rcases Nat.eq_zero_or_pos (es.ct / b) with hz | hpos
      · rw [hz]
        exact List.Perm.refl _
      · apply fyGo_perm
        have he : (es.ct / b - 1 + 1) = es.ct / b := by omega
        rw [he]
        calc es.ct / b * b ≤ es.ct := Nat.div_mul_le_self _ _
          _ = es.handles.length := rfl
    by_cases hm : mode = ShuffleMode.ALTERNATE
    · simp only [hm, if_true]
      exact List.Perm.trans (altGo_perm _ _ _ _ _ _) hfy
    · simp only [hm, if_false]
      exact hfy
  · rfl

/-- Casting compatibility: C's `i % cycle` on a non-negative int agrees with
the natural-number remainder. -/
theorem coe_tmod (i cn : ℕ) : (i : ℤ).tmod (cn : ℤ) = ((i % cn : ℕ) : ℤ) := by
  rw [Int.tmod_eq_emod (by positivity) (by positivity)]
  push_cast
  rfl

/-- A value already inside `[0, cn)` is its own truncated remainder. -/
theorem tmod_eq_self_of_range (a : ℤ) (cn : ℕ) (h0 : 0 ≤ a) (h1 : a < (cn : ℤ)) :
    a.tmod (cn : ℤ) = a := by
  rw [Int.tmod_eq_emod h0 (by positivity)]
  exact Int.emod_eq_of_lt h0 h1

/-- Step identity for counting how many positions below `i+1` have a given
remainder class. -/
theorem prefix_count_step (cn i r : ℕ) (hc : 0 < cn) (hr : r < cn) :
    i / cn + (if r < i % cn then 1 else 0) + (if i % cn = r then 1 else 0)
      = (i + 1) / cn + (if r < (i + 1) % cn then 1 else 0) := by
  have h1 := Nat.div_add_mod i cn
  have hms : i % cn < cn := Nat.mod_lt _ hc
  set q := i / cn with hq
  set s := i % cn with hs
  have hi1 : i + 1 = (s + 1) + cn * q := by omega
  have hmod : (i + 1) % cn = (s + 1) % cn := by
    rw [hi1, Nat.add_mul_mod_self_left]
  have hdiv : (i + 1) / cn = (s + 1) / cn + q := by
    rw [hi1, Nat.add_mul_div_left _ _ hc]
  rw [hmod, hdiv]
  by_cases hcase : s + 1 < cn
  · rw [Nat.mod_eq_of_lt hcase, Nat.div_eq_of_lt hcase]
    split_ifs <;> omega
  · have hceq : s + 1 = cn := by omega
    rw [hceq, Nat.mod_self, Nat.div_self hc]
    split_ifs <;> omega

/-- Counting a remainder class in a prefix whose positions already cycle:
the prefix `l.take i` of a list whose first `i` elements satisfy
`f (l[k]) = k % cn` contains `i/cn + (1 if r < i % cn)` elements of
class `r`. -/
theorem countP_take_cyclic {α : Type} (d : α) (f : α → ℤ) (cn : ℕ) (hc : 0 < cn)
    (l : List α) :
    ∀ (i : ℕ), i ≤ l.length →
      (∀ k, k < i → f (l.getD k d) = ((k % cn : ℕ) : ℤ)) →
      ∀ r : ℕ, r < cn →
        (l.take i).countP (fun a => (f a).tmod (cn : ℤ) == ((r : ℕ) : ℤ)) =
          i / cn + (if r < i % cn then 1 else 0) := by
  intro i
  induction i with
  | zero =>
    intro _ _ r _
    simp
  | succ i ih =>
    intro hle hpre r hr
    have hi : i < l.length := by omega
    have htake : l.take (i + 1) = l.take i ++ [l[i]] := by
      rw [List.take_succ, List.getElem?_eq_getElem hi]
      rfl
    rw [htake, List.countP_append]
    rw [ih (by omega) (fun k hk => hpre k (by omega)) r hr]
    have hfi : f l[i] = ((i % cn : ℕ) : ℤ) := by
      have hp := hpre i (by omega)
      rwa [List.getD_eq_getElem l d hi] at hp
    have hmm : ((i % cn : ℕ) : ℤ).tmod (cn : ℤ) = ((i % cn : ℕ) : ℤ) := by
      apply tmod_eq_self_of_range
      · positivity
      · exact_mod_cast Nat.mod_lt _ hc
    have hsingle : List.countP (fun a => (f a).tmod (cn : ℤ) == ((r : ℕ) : ℤ)) [l[i]]
        = if i % cn = r then 1 else 0 := by
      simp only [List.countP_cons, List.countP_nil, hfi, hmm]
      by_cases hir : i % cn = r
      · simp [hir]
      · have hne : ¬ ((i : ℤ) % (cn : ℤ) = ((r : ℕ) : ℤ)) := by
          exact_mod_cast hir
        simp [hir, hne]
    rw [hsingle]
    exact prefix_count_step cn i r hc hr

/-- Reading an untouched position below a swap. -/
theorem getD_swapElems_of_lt {α : Type} (d : α) (l : List α) (i j k : ℕ)
    (hk : k < i) (hij : i ≤ j) (hjlen : j < l.length) :
    (swapElems d l i j).getD k d = l.getD k d := by
  have hk1 : k < l.length := by omega
  have hk2 : k < ((l.set i (l.getD j d)).set j (l.getD i d)).length := by
    simpa using hk1
  unfold swapElems
  rw [List.getD_eq_getElem _ _ hk2, List.getD_eq_getElem _ _ hk1]
  rw [List.getElem_set_ne (by omega), List.getElem_set_ne (by omega)]

/-- Reading the left-hand position of a swap yields the old right-hand
entry. -/
theorem getD_swapElems_self {α : Type} (d : α) (l : List α) (i j : ℕ)
    (hi : i < l.length) (hj : j < l.length) :
    (swapElems d l i j).getD i d = l.getD j d := by
  have hi2 : i < ((l.set i (l.getD j d)).set j (l.getD i d)).length := by
    simpa using hi
  unfold swapElems
  rw [List.getD_eq_getElem _ _ hi2]
  by_cases hij : i = j
  · subst hij
    rw [List.getElem_set_self]
  · rw [List.getElem_set_ne (by omega), List.getElem_set_self]

/-- Main invariant of the `alternate()` pass: if the bucket classes of the
array are evenly distributed (each of the `cn` classes holds exactly
`length/cn` elements, every bucket lies in `[0, cn)`, and `cn` divides the
length), the pass never runs out of matching elements, and on return every
position `k` holds an element of bucket `k % cn`. -/
theorem altGo_fills {α : Type} (d : α) (f : α → ℤ) (cn : ℕ) (hc : 0 < cn) :
    ∀ (fuel : ℕ) (l : List α) (i : ℕ),
      fuel + i = l.length →
      cn ∣ l.length →
      (∀ e ∈ l, 0 ≤ f e ∧ f e < (cn : ℤ)) →
      (∀ r : ℕ, r < cn →
        l.countP (fun a => (f a).tmod (cn : ℤ) == ((r : ℕ) : ℤ)) = l.length / cn) →
      (∀ k, k < i → f (l.getD k d) = ((k % cn : ℕ) : ℤ)) →
      ∀ k, k < (altGo d f (cn : ℤ) fuel l i).length →
        f ((altGo d f (cn : ℤ) fuel l i).getD k d) = ((k % cn : ℕ) : ℤ) := by
  intro fuel
  induction fuel with
  | zero =>
    intro l i hfuel _ _ _ hpre k hk
    simp only [altGo] at hk ⊢
    exact hpre k (by omega)
  | succ fuel ih =>
    intro l i hfuel hdvd hrange hcount hpre k hk
    have hi : i < l.length := by omega
    rw [altGo_succ] at hk ⊢
    rw [if_pos hi] at hk ⊢
    by_cases hmatch : (f (l.getD i d)).tmod (cn : ℤ) = (i : ℤ).tmod (cn : ℤ)
    · rw [if_pos hmatch] at hk ⊢
      have hmem : l.getD i d ∈ l := by
        rw [List.getD_eq_getElem l d hi]
        exact List.getElem_mem hi
      have hfi : f (l.getD i d) = ((i % cn : ℕ) : ℤ) := by
        obtain ⟨h0, h1⟩ := hrange _ hmem
        rw [← tmod_eq_self_of_range (f (l.getD i d)) cn h0 h1, hmatch]
        exact coe_tmod i cn
      refine ih l (i + 1) (by omega) hdvd hrange hcount ?_ k hk
      intro k' hk'
      rcases Nat.lt_succ_iff_lt_or_eq.mp hk' with h | h
      · exact hpre k' h
      · rw [h]; exact hfi
    · rw [if_neg hmatch] at hk ⊢
      -- the scan must succeed: class i % cn still has a representative in the suffix
      have hsplit : l.countP (fun a => (f a).tmod (cn : ℤ) == ((i % cn : ℕ) : ℤ))
          = (l.take i).countP (fun a => (f a).tmod (cn : ℤ) == ((i % cn : ℕ) : ℤ))
            + (l.drop i).countP (fun a => (f a).tmod (cn : ℤ) == ((i % cn : ℕ) : ℤ)) := by
        rw [← List.countP_append, List.take_append_drop]
      have htakec : (l.take i).countP
          (fun a => (f a).tmod (cn : ℤ) == ((i % cn : ℕ) : ℤ)) = i / cn := by
        rw [countP_take_cyclic d f cn hc l i (by omega) hpre (i % cn) (Nat.mod_lt _ hc)]
        simp
      have hlc := hcount (i % cn) (Nat.mod_lt _ hc)
      have hdivlt : i / cn < l.length / cn := Nat.div_lt_div_of_lt_of_dvd hdvd hi
      have hdropc : 0 < (l.drop i).countP
          (fun a => (f a).tmod (cn : ℤ) == ((i % cn : ℕ) : ℤ)) := by omega
      have hex : ∃ a ∈ l.drop i, ((f a).tmod (cn : ℤ) == ((i % cn : ℕ) : ℤ)) = true :=
        List.countP_pos.mp hdropc
      have hex2 : ∃ a ∈ l.drop i, ((f a).tmod (cn : ℤ) == (i : ℤ).tmod (cn : ℤ)) = true := by
        rcases hex with ⟨a, ha, hpa⟩
        exact ⟨a, ha, by rwa [coe_tmod]⟩
      have hsome := findIdxFrom_isSome _ (l.drop i) i hex2
      rcases hfind : findIdxFrom
          (fun a => (f a).tmod (cn : ℤ) == (i : ℤ).tmod (cn : ℤ)) (l.drop i) i with _ | j
      · rw [hfind] at hsome
        simp at hsome
      · obtain ⟨hij, hlt, hpj⟩ := findIdxFrom_spec d _ _ _ _ hfind
        have hjlen : j < l.length := by
          have := List.length_drop i l
          omega
        have hdropget : (l.drop i).getD (j - i) d = l.getD j d := by
          have hji : j - i < (l.drop i).length := hlt
          rw [List.getD_eq_getElem _ _ hji, List.getD_eq_getElem _ _ hjlen]
          rw [List.getElem_drop]
          congr 1
          omega
        rw [hdropget] at hpj
        have hjval : f (l.getD j d) = ((i % cn : ℕ) : ℤ) := by
          have hmemj : l.getD j d ∈ l := by
            rw [List.getD_eq_getElem l d hjlen]
            exact List.getElem_mem hjlen
          obtain ⟨h0, h1⟩ := hrange _ hmemj
          have heq : (f (l.getD j d)).tmod (cn : ℤ) = (i : ℤ).tmod (cn : ℤ) := by
            simpa using hpj
          rw [← tmod_eq_self_of_range (f (l.getD j d)) cn h0 h1, heq, coe_tmod]
        have hperm : List.Perm (swapElems d l i j) l := swapElems_perm d l i j hi hjlen
        rw [hfind] at hk
        refine ih (swapElems d l i j) (i + 1) ?_ ?_ ?_ ?_ ?_ k hk
        · rw [swapElems_length]; omega
        · rw [swapElems_length]; exact hdvd
        · intro e he
          exact hrange e (hperm.mem_iff.mp he)
        · intro r hr
          rw [hperm.countP_eq, swapElems_length]
          exact hcount r hr
        · intro k' hk'
          rcases Nat.lt_succ_iff_lt_or_eq.mp hk' with h | h
          · rw [getD_swapElems_of_lt d l i j k' h hij hjlen]
            exact hpre k' h
          · rw [h]
            rw [getD_swapElems_self d l i j hi hjlen]
            exact hjval

/-- C7: for every ExampleSet whose modulator buckets (computed exactly as the
shuffle's lambda computes them) all lie in `[0, numHLevels)` and are evenly
distributed (each bucket holds `count/numHLevels` examples, with
`numHLevels` dividing the count), after `shuffle` in ALTERNATE mode the
bucket of the example at every position `i` equals `i mod numHLevels` — in
this even case the rearrangement pass can fill every position. -/
theorem alternate_shuffle_buckets (es : ExampleSet) (rand : ℕ → ℕ)
    (hc : 0 < es.numHLevels)
    (hdvd : es.numHLevels ∣ es.ct)
    (hrange : ∀ e ∈ es.handles, 0 ≤ es.hBucket e ∧ es.hBucket e < (es.numHLevels : ℤ))
    (hcount : ∀ r : ℕ, r < es.numHLevels →
      es.handles.countP (fun e => es.hBucket e == ((r : ℕ) : ℤ)) = es.ct / es.numHLevels) :
    ∀ k, k < (es.shuffle rand ShuffleMode.ALTERNATE).ct →
      es.hBucket ((es.shuffle rand ShuffleMode.ALTERNATE).handles.getD k 0)
        = ((k % es.numHLevels : ℕ) : ℤ) := by
  intro k hk
  have hshuf : (es.shuffle rand ShuffleMode.ALTERNATE).handles
      = altGo 0 es.hBucket (es.numHLevels : ℤ)
          (fyGo 0 rand 1 es.handles (es.ct / 1 - 1)).length
          (fyGo 0 rand 1 es.handles (es.ct / 1 - 1)) 0 := rfl
  set l1 := fyGo 0 rand 1 es.handles (es.ct / 1 - 1) with hl1
  have hperm : List.Perm l1 es.handles := by
    rcases Nat.eq_zero_or_pos es.ct with hz | hpos
    · rw [hl1]
      have hz1 : es.ct / 1 - 1 = 0 := by simp [hz]
      rw [hz1]
      exact List.Perm.refl _
    · apply fyGo_perm
      have he : es.ct / 1 - 1 + 1 = es.ct := by
        simp only [Nat.div_one]
        omega
      rw [he, mul_one]
      exact le_rfl
  have hlen : l1.length = es.ct := hperm.length_eq
  have hcount2 : ∀ r : ℕ, r < es.numHLevels →
      l1.countP (fun a => (es.hBucket a).tmod (es.numHLevels : ℤ) == ((r : ℕ) : ℤ))
        = l1.length / es.numHLevels := by
    intro r hr
    have hcgr : es.handles.countP
          (fun a => (es.hBucket a).tmod (es.numHLevels : ℤ) == ((r : ℕ) : ℤ))
        = es.handles.countP (fun e => es.hBucket e == ((r : ℕ) : ℤ)) := by
      apply List.countP_congr
      intro x hx
      obtain ⟨h0, h1⟩ := hrange x hx
      rw [tmod_eq_self_of_range _ _ h0 h1]
    rw [hperm.countP_eq, hcgr, hcount r hr, hlen]
  have hk2 : k < (altGo 0 es.hBucket (es.numHLevels : ℤ) l1.length l1 0).length := by
    have hct : (es.shuffle rand ShuffleMode.ALTERNATE).ct
        = (altGo 0 es.hBucket (es.numHLevels : ℤ) l1.length l1 0).length :=
      congrArg List.length hshuf
    omega
  have hmain := altGo_fills 0 es.hBucket es.numHLevels hc l1.length l1 0
    (by omega)
    (by rw [hlen]; exact hdvd)
    (fun e he => hrange e (hperm.mem_iff.mp he))
    hcount2
    (fun k' hk' => absurd hk' (Nat.not_lt_zero k'))
    k hk2
  rw [hshuf]
  exact hmain

/-- The Fisher-Yates pass never changes the length of the handle array. -/
theorem fyGo_length {α : Type} (d : α) (rand : ℕ → ℕ) (b : ℕ) :
    ∀ (i : ℕ) (l : List α), (fyGo d rand b l i).length = l.length := by
  intro i
  induction i with
  | zero => intro l; rfl
  | succ i ih =>
    intro l
    rw [fyGo, ih, blockSwap_length]

/-- On the concrete set `esAlt` the shuffle's bucket function is just the
parity of the stored modulator position. -/
theorem hBucket_esAlt (e : ℕ) : esAlt.hBucket e = ((e % 2 : ℕ) : ℤ) := by
  unfold ExampleSet.hBucket esAlt cTrunc ExampleSet.hOffset
  norm_num

/-- Witness for the C7 theorem: the concrete four-example set with buckets
0,1,0,1 satisfies all the hypotheses, and after an ALTERNATE shuffle with an
all-zero PRNG stream positions 0 and 1 hold buckets 0 and 1. -/
theorem alternate_shuffle_buckets_witness :
    ExampleSet.hBucket esAlt
        ((esAlt.shuffle (fun _ => 0) ShuffleMode.ALTERNATE).handles.getD 0 0) = 0 ∧
    ExampleSet.hBucket esAlt
        ((esAlt.shuffle (fun _ => 0) ShuffleMode.ALTERNATE).handles.getD 1 0) = 1 := by
  have hrange : ∀ e ∈ esAlt.handles,
      0 ≤ esAlt.hBucket e ∧ esAlt.hBucket e < (esAlt.numHLevels : ℤ) := by
    intro e _
    rw [hBucket_esAlt]
    have h2 : e % 2 < 2 := Nat.mod_lt _ (by omega)
    constructor
    · positivity
    · show ((e % 2 : ℕ) : ℤ) < ((2 : ℕ) : ℤ)
      exact_mod_cast h2
  have hcount : ∀ r : ℕ, r < esAlt.numHLevels →
      esAlt.handles.countP (fun e => esAlt.hBucket e == ((r : ℕ) : ℤ))
        = esAlt.ct / esAlt.numHLevels := by
    intro r hr
    have hr2 : r < 2 := hr
    interval_cases r
    · simp only [hBucket_esAlt]
      decide
    · simp only [hBucket_esAlt]
      decide
  have hlen4 : (esAlt.shuffle (fun _ => 0) ShuffleMode.ALTERNATE).ct = 4 := by
    have h1 : (esAlt.shuffle (fun _ => 0) ShuffleMode.ALTERNATE).handles
        = altGo 0 esAlt.hBucket (esAlt.numHLevels : ℤ)
            (fyGo 0 (fun _ => 0) 1 esAlt.handles (esAlt.ct / 1 - 1)).length
            (fyGo 0 (fun _ => 0) 1 esAlt.handles (esAlt.ct / 1 - 1)) 0 := rfl
    show (esAlt.shuffle (fun _ => 0) ShuffleMode.ALTERNATE).handles.length = 4
    rw [h1, (altGo_perm _ _ _ _ _ _).length_eq, fyGo_length]
    rfl
  constructor
  · have h := alternate_shuffle_buckets esAlt (fun _ => 0) (by decide) (by decide)
      hrange hcount 0 (by omega)
    simpa using h
  · have h := alternate_shuffle_buckets esAlt (fun _ => 0) (by decide) (by decide)
      hrange hcount 1 (by omega)
    simpa using h

/-- C2: for every activation, every parameter set (a UESMANN network and a
plain network with identical topology, weights and biases share the same
`BPNet` record) and every input vector, the UESMANN forward pass with
modulator `h = 0` produces, layer by layer and hence on the output layer of
a full run, exactly the plain network's values: the `(h+1)` factor
degenerates to 1 and the pre-activation `sum(weight*input)*(h+1) + bias`
equals the plain `bias + sum(weight*input)`. -/
theorem uesmann_h0_matches_plain (sg : ℚ → ℚ) (net : BPNet) (ins : ℕ → ℚ) :
    (∀ l j, uesLayerOut sg net 0 ins l j = BPNet.layerOut sg net ins l j) ∧
    (∀ j, uesNetOut sg net 0 ins j = BPNet.netOut sg net ins j) := by
  have hlayer : ∀ l j, uesLayerOut sg net 0 ins l j = BPNet.layerOut sg net ins l j := by
    intro l
    induction l with
    | zero => intro j; rfl
    | succ l ih =>
      intro j
      simp only [uesLayerOut, BPNet.layerOut]
      congr 1
      have hsum : (∑ k ∈ Finset.range (net.sizeAt l),
            net.weights (l + 1) j k * uesLayerOut sg net 0 ins l k)
          = ∑ k ∈ Finset.range (net.sizeAt l),
            net.weights (l + 1) j k * BPNet.layerOut sg net ins l k :=
        Finset.sum_congr rfl (fun k _ => by rw [ih k])
      rw [hsum]
      ring
  exact ⟨hlayer, fun j => hlayer (net.numLayers - 1) j⟩

/-- C9: for an activation with `sg 0 = 1/2` (the logistic sigmoid of 0 is
exactly 0.5 in IEEE doubles), a network whose weights and biases are all
zero outputs 1/2 at every node of every non-input layer on every input;
`test` over an example set is then the mean over all examples and outputs of
`(1/2 - target)^2`; and on the concrete set of 10 examples, 5 inputs and 2
outputs with output `j` of example `i` equal to `i*20 + j`, `test()` returns
exactly 11400.25. -/
theorem zero_net_test (sg : ℚ → ℚ) (hsg : sg 0 = 1 / 2) :
    (∀ (net : BPNet) (ins : ℕ → ℚ) (l j : ℕ),
        (∀ a b c, net.weights a b c = 0) → (∀ a b, net.biases a b = 0) →
        BPNet.layerOut sg net ins (l + 1) j = 1 / 2) ∧
    (∀ (net : BPNet) (ex : ExampleSet) (start num : ℕ),
        (∀ a b c, net.weights a b c = 0) → (∀ a b, net.biases a b = 0) →
        2 ≤ net.numLayers →
        BPNet.netTest sg net ex start num
          = (∑ i ∈ Finset.range num, ∑ j ∈ Finset.range ex.noutputs,
              (1 / 2 - ex.getOutput (start + i) j) ^ 2)
            / ((num : ℚ) * (ex.noutputs : ℚ))) ∧
    BPNet.netTest sg zeroNet532 exC9 0 10 = 45601 / 4 := by
  have hhalf : ∀ (net : BPNet) (ins : ℕ → ℚ) (l j : ℕ),
      (∀ a b c, net.weights a b c = 0) → (∀ a b, net.biases a b = 0) →
      BPNet.layerOut sg net ins (l + 1) j = 1 / 2 := by
    intro net ins l j hw hb
    simp [BPNet.layerOut, hw, hb, hsg]
  have htest : ∀ (net : BPNet) (ex : ExampleSet) (start num : ℕ),
      (∀ a b c, net.weights a b c = 0) → (∀ a b, net.biases a b = 0) →
      2 ≤ net.numLayers →
      BPNet.netTest sg net ex start num
        = (∑ i ∈ Finset.range num, ∑ j ∈ Finset.range ex.noutputs,
            (1 / 2 - ex.getOutput (start + i) j) ^ 2)
          / ((num : ℚ) * (ex.noutputs : ℚ)) := by
    intro net ex start num hw hb hL
    unfold BPNet.netTest
    congr 1
    apply Finset.sum_congr rfl
    intro i _
    apply Finset.sum_congr rfl
    intro j _
    have hL1 : net.numLayers - 1 = (net.numLayers - 2) + 1 := by omega
    unfold BPNet.netOut
    rw [hL1, hhalf net _ _ _ hw hb]
  refine ⟨hhalf, htest, ?_⟩
  rw [htest zeroNet532 exC9 0 10 (fun _ _ _ => rfl) (fun _ _ => rfl) (by decide)]
  have hh : ∀ i, i < 10 →
      List.getD [0, 8, 16, 24, 32, 40, 48, 56, 64, 72] i 0 = 8 * i := by decide
  have hout : ∀ i j : ℕ, i < 10 → j < 2 →
      exC9.getOutput i j = ((20 * i + j : ℕ) : ℚ) := by
    intro i j hi hj
    simp only [ExampleSet.getOutput, ExampleSet.outputOffset, exC9]
    rw [hh i hi]
    interval_cases j
    · have h1 : (8 * i + 5 + 0) % 8 = 5 := by omega
      have h2 : (8 * i + 5 + 0) / 8 = i := by omega
      simp [h1, h2]
    · have h1 : ¬((8 * i + 5 + 1) % 8 = 5) := by omega
      have h2 : (8 * i + 5 + 1) % 8 = 6 := by omega
      have h3 : (8 * i + 5 + 1) / 8 = i := by omega
      simp [h1, h2, h3]
  have h2 : exC9.noutputs = 2 := rfl
  simp only [h2, Nat.zero_add, Finset.sum_range_succ, Finset.sum_range_zero]
  norm_num [hout]

/-- Witness for the C9 theorem at the concrete activation `sgHalf` (which
maps 0 to 1/2): the concrete `test()` value is exactly 11400.25. -/
theorem zero_net_test_witness :
    BPNet.netTest sgHalf zeroNet532 exC9 0 10 = 45601 / 4 :=
  (zero_net_test sgHalf rfl).2.2

/-- C5 counterexample: on a zero 1-2 network (1 input, 2 outputs) under the
all-halves activation, `trainBatch` over the single all-zero example returns
1/2 — the batch's sum of squared output errors (1/2) divided by `num` (1)
only — whereas the claim's value, that sum divided by `num * noutputs`
(1 * 2), is 1/4. -/
theorem trainBatch_error_counterexample :
    (BPNet.trainBatch sgHalf netC5 exC5 0 1 1).2 = 1 / 2 ∧
    batchSSE sgHalf netC5 exC5 0 1 / ((1 : ℚ) * 2) = 1 / 4 ∧
    (BPNet.trainBatch sgHalf netC5 exC5 0 1 1).2
      ≠ batchSSE sgHalf netC5 exC5 0 1 / ((1 : ℚ) * 2) := by
  have hsse : batchSSE sgHalf netC5 exC5 0 1 = 1 / 2 := by
    simp only [batchSSE, netC5, exC5, BPNet.numLayers, BPNet.sizeAt]
    norm_num [Finset.sum_range_succ, BPNet.layerOut, ExampleSet.getOutput,
      ExampleSet.getInput, ExampleSet.outputOffset, sgHalf]
  have htb : (BPNet.trainBatch sgHalf netC5 exC5 0 1 1).2 = 1 / 2 := by
    simp only [BPNet.trainBatch, netC5, exC5, BPNet.numLayers, BPNet.sizeAt]
    norm_num [Finset.sum_range_succ, BPNet.layerOut, ExampleSet.getOutput,
      ExampleSet.getInput, ExampleSet.outputOffset, sgHalf]
  refine ⟨htb, ?_, ?_⟩
  · rw [hsse]; norm_num
  · rw [htb, hsse]; norm_num

/-- C5 amended: for every activation, plain network, example set, start
index and learning rate, and every non-empty batch, the value returned by
`trainBatch` is the batch's sum of squared output errors divided by `num`
alone — the mean over examples of the per-example sum over outputs — not
further divided by the number of outputs. -/
theorem trainBatch_returns_sse_over_num (sg : ℚ → ℚ) (net : BPNet)
    (ex : ExampleSet) (start num : ℕ) (eta : ℚ) (hnum : 0 < num) :
    (BPNet.trainBatch sg net ex start num eta).2
      = batchSSE sg net ex start num / (num : ℚ) := by
  show (∑ nn ∈ Finset.range num, ∑ i ∈ Finset.range (net.sizeAt (net.numLayers - 1)),
      (BPNet.layerOut sg net (fun k => ex.getInput (start + nn) k) (net.numLayers - 1) i
        - ex.getOutput (start + nn) i) ^ 2) * (1 / (num : ℚ))
    = batchSSE sg net ex start num / (num : ℚ)
  rw [mul_one_div]
  rfl

/-- Witness for the amended C5 theorem at the concrete batch of one example:
the returned error equals the sum of squared output errors divided by the
batch size. -/
theorem trainBatch_returns_sse_over_num_witness :
    (BPNet.trainBatch sgHalf netC5 exC5 0 1 1).2
      = batchSSE sgHalf netC5 exC5 0 1 / ((1 : ℕ) : ℚ) :=
  trainBatch_returns_sse_over_num sgHalf netC5 exC5 0 1 1 (by decide)

/-- C3: the output-blending `trainBatch` does not fail for batch sizes other
than one — the `num != 1` check constructs a `std::runtime_error` but never
throws it — and the batch-size argument has no effect whatsoever on the
computation: for every `num` (including the claim's failing case `num = 2`)
the call behaves exactly as the `num = 1` call, training the selected
sub-network on the single example at `start` and returning the running-mean
error. -/
theorem obTrainBatch_ignores_num (sg : ℚ → ℚ) (ob : OutputBlendingNet)
    (ex : ExampleSet) (start num : ℕ) (eta : ℚ) :
    obTrainBatch sg ob ex start num eta = obTrainBatch sg ob ex start 1 eta := rfl

/-- C1: a cross-validation event of `trainSGD` with best-selection by CV
compares and records the iteration's training error, not the just-computed
error of the evaluated CV slice.  Concretely: with running minimum 1/2,
training error 0 and a CV slice whose error evaluates to 1, the event
snapshots the parameters and lowers the minimum to 0 even though the slice's
CV error (1) did not improve on the minimum (neither 1 < 1/2 nor was the
minimum unset). -/
theorem trainSGD_cv_selects_on_training_error :
    (cvEvent sgHalf netZ11 exCV 1 0 true 0 ⟨1 / 2, none⟩).2 = 1 ∧
    (cvEvent sgHalf netZ11 exCV 1 0 true 0 ⟨1 / 2, none⟩).1.minError = 0 ∧
    (cvEvent sgHalf netZ11 exCV 1 0 true 0 ⟨1 / 2, none⟩).1.bestNetBuffer = some netZ11 ∧
    ¬((1 : ℚ) < 1 / 2 ∨ (1 : ℚ) / 2 < 0) := by
  have hl1 : ∀ ins : ℕ → ℚ, ∀ j, BPNet.layerOut sgHalf netZ11 ins 1 j = 1 / 2 := by
    intro ins j
    show BPNet.layerOut sgHalf netZ11 ins (0 + 1) j = 1 / 2
    simp [BPNet.layerOut, sgHalf]
  have herr : BPNet.netTest sgHalf netZ11 exCV (0 * 1) 1 = 1 := by
    have h21 : netZ11.numLayers - 1 = 1 := rfl
    have hno : exCV.noutputs = 1 := rfl
    simp only [BPNet.netTest, BPNet.netOut, h21, hl1, hno,
      Finset.sum_range_succ, Finset.sum_range_zero]
    norm_num [ExampleSet.getOutput, ExampleSet.outputOffset, exCV]
  have hcond : ((⟨1 / 2, none⟩ : BestSel BPNet).minError < 0 ∨
      (0 : ℚ) < (⟨1 / 2, none⟩ : BestSel BPNet).minError) := by
    right
    show (0 : ℚ) < 1 / 2
    norm_num
  refine ⟨herr, ?_, ?_, ?_⟩
  · simp only [cvEvent, cvSelectStep]
    rw [if_pos hcond]
  · simp only [cvEvent, cvSelectStep]
    rw [if_pos hcond]
    simp
  · intro h
    rcases h with h | h <;> norm_num at h

/-- C10: each per-example accessor of `ExampleSet` guards its signed index
only with `assert(example < ct)`: every index at or past the end fails the
assertion (the call aborts), while every negative index passes the guard
and the call proceeds — the lower bound is unchecked. -/
theorem accessor_guards (es : ExampleSet) (exIdx : ℤ) (hv : ℚ) :
    ((es.ct : ℤ) ≤ exIdx →
      es.getInputsChecked exIdx = none ∧ es.getOutputsChecked exIdx = none ∧
      es.getHChecked exIdx = none ∧ es.setHChecked exIdx hv = none) ∧
    (exIdx < 0 →
      (es.getInputsChecked exIdx).isSome ∧ (es.getOutputsChecked exIdx).isSome ∧
      (es.getHChecked exIdx).isSome ∧ (es.setHChecked exIdx hv).isSome) := by
  constructor
  · intro hge
    have hguard : assertIndex exIdx (es.ct : ℤ) = false := by
      simp [assertIndex]
      omega
    simp [ExampleSet.getInputsChecked, ExampleSet.getOutputsChecked,
      ExampleSet.getHChecked, ExampleSet.setHChecked, hguard]
  · intro hneg
    have hlt : exIdx < (es.ct : ℤ) := lt_of_lt_of_le hneg (by positivity)
    have hguard : assertIndex exIdx (es.ct : ℤ) = true := by
      simp [assertIndex]
      omega
    simp [ExampleSet.getInputsChecked, ExampleSet.getOutputsChecked,
      ExampleSet.getHChecked, ExampleSet.setHChecked, hguard]

/-- Witness for the C10 theorem on the concrete four-example set: index 5
(past the end) fails the assertion while index -1 passes the guard and the
access proceeds. -/
theorem accessor_guards_witness :
    ExampleSet.getInputsChecked esAlt 5 = none ∧
    (ExampleSet.getInputsChecked esAlt (-1)).isSome := by
  constructor
  · exact ((accessor_guards esAlt 5 0).1 (by decide)).1
  · exact ((accessor_guards esAlt (-1) 0).2 (by decide)).1
